import Mathlib

/-!
# Verification of the geoh5py entity/data model

This development formalises the logical entity graph and merge semantics of
the `geoh5` data model as described by the repository's user-guide material:
drillhole depth-log reconciliation (point logs and interval logs), the
reference value map of DC/IP surveys, the source/receiver electrode link,
categorical data attachment, and workspace persistence.

The repository slice contains only documentation (notebooks) calling the
library; the library implementation itself is not part of the slice, so every
definition below is modelled from the specification's description of the
behaviour, with depths and values as exact rationals.
-/

namespace Geoh5

/-! ## Drillhole depth index: point logs

A point log's depth index is an ordered list of depth markers.  Inserting a
new depth first finds the nearest existing marker; if it lies within the
collocation distance the incoming depth is merged into it, otherwise a new
marker is inserted keeping the list sorted. -/

/-- Nearest-marker search over a nonempty marker list `m :: l`: returns the
marker minimising `|x - marker|`, preferring the earlier marker on ties. -/
def nearestMarkerIn (x : ℚ) : ℚ → List ℚ → ℚ
  | m, [] => m
  | m, a :: rest =>
    let n := nearestMarkerIn x a rest
    if |x - n| < |x - m| then n else m

/-- Modelled from the spec: "for each incoming depth, find the nearest
existing marker" (§4.3, point log insertion).  The library's sorted-index
search is not in the slice; this returns the marker minimising the absolute
depth difference, preferring the earlier marker on ties. -/
def nearestMarker (x : ℚ) : List ℚ → Option ℚ
  | [] => none
  | m :: rest => some (nearestMarkerIn x m rest)

/-- Modelled from the spec: point log insertion with collocation distance
`cd` (§4.3).  If the nearest marker is within `cd` (inclusive) the depth is
merged into it (second component reports the merge target); otherwise a new
marker is inserted, keeping the sequence sorted by depth. -/
def insertPointLog (cd x : ℚ) (markers : List ℚ) : List ℚ × Option ℚ :=
  match nearestMarker x markers with
  | some m =>
    if |x - m| ≤ cd then (markers, some m)
    else (markers.orderedInsert (· ≤ ·) x, none)
  | none => ([x], none)

theorem nearestMarkerIn_mem (x : ℚ) : ∀ (l : List ℚ) (m : ℚ),
    nearestMarkerIn x m l ∈ m :: l := by
  intro l
  induction l with
  | nil => intro m; simp [nearestMarkerIn]
  | cons a rest ih =>
    intro m
    simp only [nearestMarkerIn]
    by_cases hlt : |x - nearestMarkerIn x a rest| < |x - m|
    · rw [if_pos hlt]
      exact List.mem_cons_of_mem m (ih a)
    · rw [if_neg hlt]
      exact List.mem_cons_self m _

theorem nearestMarkerIn_min (x : ℚ) : ∀ (l : List ℚ) (m : ℚ),
    ∀ k ∈ m :: l, |x - nearestMarkerIn x m l| ≤ |x - k| := by
  intro l
  induction l with
  | nil =>
    intro m k hk
    rcases List.mem_singleton.mp hk with rfl
    exact le_refl _
  | cons a rest ih =>
    intro m k hk
    simp only [nearestMarkerIn]
    by_cases hlt : |x - nearestMarkerIn x a rest| < |x - m|
    · rw [if_pos hlt]
      rcases List.mem_cons.mp hk with rfl | hk'
      · exact le_of_lt hlt
      · exact ih a k hk'
    · rw [if_neg hlt]
      rcases List.mem_cons.mp hk with rfl | hk'
      · exact le_refl _
      · exact le_trans (not_lt.mp hlt) (ih a k hk')

theorem nearestMarker_mem {x : ℚ} {l : List ℚ} {m : ℚ}
    (h : nearestMarker x l = some m) : m ∈ l := by
  cases l with
  | nil => simp [nearestMarker] at h
  | cons a rest =>
    simp only [nearestMarker, Option.some.injEq] at h
    subst h
    exact nearestMarkerIn_mem x rest a

theorem nearestMarker_min {x : ℚ} {l : List ℚ} {m : ℚ}
    (h : nearestMarker x l = some m) : ∀ k ∈ l, |x - m| ≤ |x - k| := by
  cases l with
  | nil => simp [nearestMarker] at h
  | cons a rest =>
    simp only [nearestMarker, Option.some.injEq] at h
    subst h
    exact nearestMarkerIn_min x rest a

theorem nearestMarker_isSome {x : ℚ} {l : List ℚ} (h : l ≠ []) :
    ∃ m, nearestMarker x l = some m := by
  cases l with
  | nil => exact absurd rfl h
  | cons a rest => exact ⟨_, rfl⟩

/-- The depth markers `0, 1, ..., 49` of the user guide's point-log example. -/
def markersTo49 : List ℚ :=
  [0, 1, 2, 3, 4, 5, 6, 7, 8, 9, 10, 11, 12, 13, 14, 15, 16, 17, 18, 19,
   20, 21, 22, 23, 24, 25, 26, 27, 28, 29, 30, 31, 32, 33, 34, 35, 36, 37,
   38, 39, 40, 41, 42, 43, 44, 45, 46, 47, 48, 49]

set_option maxRecDepth 8000 in
/-- C1: point-log insertion with collocation distance `cd` merges an incoming
depth into the nearest existing marker exactly when the absolute difference
is at most `cd` (inclusive boundary), and otherwise inserts a new marker at
the incoming depth; inserting depth 47.1 with collocation distance 0.5
against markers 0..49 merges it into marker 47. -/
theorem point_log_collocation_boundary (cd x : ℚ) (markers : List ℚ)
    (hne : markers ≠ []) :
    (∃ m, nearestMarker x markers = some m ∧ m ∈ markers ∧
      (∀ k ∈ markers, |x - m| ≤ |x - k|) ∧
      (|x - m| ≤ cd → insertPointLog cd x markers = (markers, some m)) ∧
      (cd < |x - m| →
        insertPointLog cd x markers = (markers.orderedInsert (· ≤ ·) x, none))) ∧
    insertPointLog (1/2) (471/10) markersTo49 = (markersTo49, some 47) := by
  constructor
  · obtain ⟨m, hm⟩ := nearestMarker_isSome (x := x) hne
    refine ⟨m, hm, nearestMarker_mem hm, nearestMarker_min hm, ?_, ?_⟩
    · intro h
      simp only [insertPointLog, hm, if_pos h]
    · intro h
      simp only [insertPointLog, hm, if_neg (not_le_of_lt h)]
  · norm_num [markersTo49, insertPointLog, nearestMarker, nearestMarkerIn,
      abs, max_def]

/-- Witness for C1 at a concrete input. -/
theorem point_log_collocation_boundary_witness :
    (∃ m, nearestMarker 5 [0, 10] = some m ∧ m ∈ [(0 : ℚ), 10] ∧
      (∀ k ∈ [(0 : ℚ), 10], |5 - m| ≤ |5 - k|) ∧
      (|5 - m| ≤ 1 → insertPointLog 1 5 [0, 10] = ([0, 10], some m)) ∧
      (1 < |5 - m| →
        insertPointLog 1 5 [0, 10] =
          (([0, 10] : List ℚ).orderedInsert (· ≤ ·) 5, none))) ∧
    insertPointLog (1/2) (471/10) markersTo49 = (markersTo49, some 47) :=
  point_log_collocation_boundary 1 5 [0, 10] (by simp)

/-! ## Drillhole depth index: interval logs

An interval log is an ordered list of `[from, to]` depth intervals.  An
incoming interval is merged into an existing one when both endpoints agree
within the tolerance; an overlapping but non-matching interval is a
reportable error; otherwise the interval is inserted sorted by its
from-depth. -/

/-- Errors of drillhole interval-log insertion. -/
inductive DrillholeError where
  | overlappingInterval
deriving DecidableEq, Repr

/-- Modelled from the spec: "an incoming interval is merged into an existing
interval if both endpoints differ by at most `tolerance`" (§4.3).  Returns
the first existing interval matching both endpoints within `tol`. -/
def intervalMatch (tol : ℚ) (iv : ℚ × ℚ) (l : List (ℚ × ℚ)) : Option (ℚ × ℚ) :=
  l.find? fun e => decide (|iv.1 - e.1| ≤ tol) && decide (|iv.2 - e.2| ≤ tol)

/-- Two depth intervals overlap when their interiors intersect. -/
def intervalOverlaps (iv e : ℚ × ℚ) : Bool :=
  decide (max iv.1 e.1 < min iv.2 e.2)

/-- Insertion of an interval into the sorted interval list, ordered by
from-depth. -/
def insertByFrom (iv : ℚ × ℚ) : List (ℚ × ℚ) → List (ℚ × ℚ)
  | [] => [iv]
  | e :: rest => if iv.1 ≤ e.1 then iv :: e :: rest else e :: insertByFrom iv rest

/-- Modelled from the spec: interval-log insertion with tolerance `tol`
(§4.3).  A both-endpoint match within `tol` merges (the index is unchanged;
the Boolean reports the merge); an overlapping but non-matching interval is
an `OverlappingIntervalError`; otherwise the interval is inserted keeping
the list sorted by from-depth. -/
def insertIntervalLog (tol : ℚ) (iv : ℚ × ℚ) (l : List (ℚ × ℚ)) :
    Except DrillholeError (List (ℚ × ℚ) × Bool) :=
  match intervalMatch tol iv l with
  | some _ => .ok (l, true)
  | none =>
    if l.any (intervalOverlaps iv) then .error .overlappingInterval
    else .ok (insertByFrom iv l, false)

/-- Sequential interval-log insertion; the Boolean list records which
incoming intervals were merged into existing ones. -/
def insertIntervals (tol : ℚ) :
    List (ℚ × ℚ) → List (ℚ × ℚ) → Except DrillholeError (List (ℚ × ℚ) × List Bool)
  | [], l => .ok (l, [])
  | iv :: rest, l =>
    match insertIntervalLog tol iv l with
    | .error e => .error e
    | .ok (l1, b) =>
      match insertIntervals tol rest l1 with
      | .error e => .error e
      | .ok (l2, bs) => .ok (l2, b :: bs)

theorem intervalMatch_some {tol : ℚ} {iv e : ℚ × ℚ} {l : List (ℚ × ℚ)}
    (h : intervalMatch tol iv l = some e) :
    e ∈ l ∧ |iv.1 - e.1| ≤ tol ∧ |iv.2 - e.2| ≤ tol := by
  refine ⟨List.mem_of_find?_eq_some h, ?_⟩
  have := List.find?_some h
  simpa using this

theorem intervalMatch_isSome {tol : ℚ} {iv : ℚ × ℚ} {l : List (ℚ × ℚ)}
    (h : ∃ e ∈ l, |iv.1 - e.1| ≤ tol ∧ |iv.2 - e.2| ≤ tol) :
    ∃ e, intervalMatch tol iv l = some e := by
  rcases h with ⟨e, he, h1, h2⟩
  have : (l.find? fun e =>
      decide (|iv.1 - e.1| ≤ tol) && decide (|iv.2 - e.2| ≤ tol)).isSome := by
    rw [List.find?_isSome]
    exact ⟨e, he, by simp [h1, h2]⟩
  rcases Option.isSome_iff_exists.mp this with ⟨e', he'⟩
  exact ⟨e', he'⟩

theorem intervalMatch_none {tol : ℚ} {iv : ℚ × ℚ} {l : List (ℚ × ℚ)}
    (h : ∀ e ∈ l, ¬(|iv.1 - e.1| ≤ tol ∧ |iv.2 - e.2| ≤ tol)) :
    intervalMatch tol iv l = none := by
  rw [intervalMatch, List.find?_eq_none]
  intro e he
  simpa using h e he

/-- C2: interval-log insertion with tolerance `tol` merges an incoming
interval into an existing one exactly when both endpoints agree within
`tol` (and then leaves the index unchanged); an overlapping interval with no
such match fails with `OverlappingIntervalError`; otherwise the interval is
inserted sorted by from-depth.  Inserting `[0.25, 25.5]`, `[30.1, 55.5]`,
`[56.5, 80.2]` into an empty interval log with the default tolerance `1e-3`
inserts three intervals in order with no merges. -/
theorem interval_log_merge_tolerance (tol : ℚ) (iv : ℚ × ℚ) (l : List (ℚ × ℚ)) :
    ((∃ l', insertIntervalLog tol iv l = .ok (l', true)) ↔
      ∃ e ∈ l, |iv.1 - e.1| ≤ tol ∧ |iv.2 - e.2| ≤ tol) ∧
    (∀ l', insertIntervalLog tol iv l = .ok (l', true) → l' = l) ∧
    ((∀ e ∈ l, ¬(|iv.1 - e.1| ≤ tol ∧ |iv.2 - e.2| ≤ tol)) →
      (∃ e ∈ l, intervalOverlaps iv e = true) →
      insertIntervalLog tol iv l = .error .overlappingInterval) ∧
    ((∀ e ∈ l, ¬(|iv.1 - e.1| ≤ tol ∧ |iv.2 - e.2| ≤ tol)) →
      (∀ e ∈ l, intervalOverlaps iv e = false) →
      insertIntervalLog tol iv l = .ok (insertByFrom iv l, false)) ∧
    insertIntervals (1/1000) [(1/4, 51/2), (301/10, 111/2), (113/2, 401/5)] [] =
      .ok ([(1/4, 51/2), (301/10, 111/2), (113/2, 401/5)], [false, false, false]) := by
  refine ⟨⟨?_, ?_⟩, ?_, ?_, ?_, ?_⟩
  · rintro ⟨l', hl'⟩
    cases hmatch : intervalMatch tol iv l with
    | none =>
      rw [insertIntervalLog, hmatch] at hl'
      by_cases hov : l.any (intervalOverlaps iv)
      · simp [hov] at hl'
      · simp [hov] at hl'
    | some e => exact ⟨e, (intervalMatch_some hmatch).1, (intervalMatch_some hmatch).2⟩
  · intro h
    obtain ⟨e, he⟩ := intervalMatch_isSome h
    exact ⟨l, by rw [insertIntervalLog, he]⟩
  · intro l' hl'
    cases hmatch : intervalMatch tol iv l with
    | none =>
      rw [insertIntervalLog, hmatch] at hl'
      by_cases hov : l.any (intervalOverlaps iv)
      · simp [hov] at hl'
      · simp [hov] at hl'
    | some e =>
      rw [insertIntervalLog, hmatch] at hl'
      exact (Prod.mk.injEq .. ▸ Except.ok.inj hl').1.symm
  · intro hno hov
    rw [insertIntervalLog, intervalMatch_none hno]
    rcases hov with ⟨e, he, hee⟩
    rw [if_pos (List.any_eq_true.mpr ⟨e, he, hee⟩)]
  · intro hno hov
    rw [insertIntervalLog, intervalMatch_none hno, if_neg]
    intro hcontra
    rcases List.any_eq_true.mp hcontra with ⟨e, he, hee⟩
    rw [hov e he] at hee
    cases hee
  · norm_num [insertIntervals, insertIntervalLog, intervalMatch, insertByFrom,
      intervalOverlaps, List.find?, abs, max_def, min_def]

/-- Witness for C2 at a concrete input. -/
theorem interval_log_merge_tolerance_witness :
    insertIntervalLog 1 (0, 10) [(2, 5)] = .error .overlappingInterval ∧
    insertIntervalLog (1/1000) (1/4, 51/2) [] =
      .ok (insertByFrom (1/4, 51/2) [], false) := by
  constructor
  · exact (interval_log_merge_tolerance 1 (0, 10) [(2, 5)]).2.2.1
      (by norm_num [abs, max_def])
      ⟨(2, 5), by simp, by norm_num [intervalOverlaps, max_def, min_def]⟩
  · exact (interval_log_merge_tolerance (1/1000) (1/4, 51/2) []).2.2.2.1
      (by simp) (by simp)

/-! ## Ordering invariants of the depth index -/

/-- The interval-log index invariant: from-depths are non-decreasing and no
two stored intervals overlap. -/
def IntervalIndexOrdered (l : List (ℚ × ℚ)) : Prop :=
  l.Pairwise fun a b => a.1 ≤ b.1 ∧ intervalOverlaps a b = false

theorem intervalOverlaps_symm (a b : ℚ × ℚ) :
    intervalOverlaps a b = intervalOverlaps b a := by
  simp [intervalOverlaps, max_comm, min_comm]

theorem mem_insertByFrom {b iv : ℚ × ℚ} : ∀ {l : List (ℚ × ℚ)},
    b ∈ insertByFrom iv l → b = iv ∨ b ∈ l := by
  intro l
  induction l with
  | nil => intro h; simp [insertByFrom] at h; exact Or.inl h
  | cons e rest ih =>
    intro h
    by_cases hle : iv.1 ≤ e.1
    · rw [insertByFrom, if_pos hle] at h
      rcases List.mem_cons.mp h with rfl | h' <;> simp [*]
    · rw [insertByFrom, if_neg hle] at h
      rcases List.mem_cons.mp h with rfl | h'
      · simp
      · rcases ih h' with rfl | hb <;> simp [*]

theorem insertByFrom_ordered {iv : ℚ × ℚ} : ∀ {l : List (ℚ × ℚ)},
    IntervalIndexOrdered l →
    (∀ e ∈ l, intervalOverlaps iv e = false) →
    IntervalIndexOrdered (insertByFrom iv l) := by
  intro l
  induction l with
  | nil => intro _ _; simp [insertByFrom, IntervalIndexOrdered]
  | cons e rest ih =>
    intro hl hov
    rcases List.pairwise_cons.mp hl with ⟨he, hrest⟩
    by_cases hle : iv.1 ≤ e.1
    · rw [insertByFrom, if_pos hle]
      refine List.pairwise_cons.mpr ⟨?_, hl⟩
      intro b hb
      refine ⟨?_, hov b hb⟩
      rcases List.mem_cons.mp hb with h' | hb'
      · rw [h']; exact hle
      · exact le_trans hle (he b hb').1
    · rw [insertByFrom, if_neg hle]
      refine List.pairwise_cons.mpr
        ⟨?_, ih hrest fun e' he' => hov e' (List.mem_cons_of_mem e he')⟩
      intro b hb
      rcases mem_insertByFrom hb with h' | hb'
      · rw [h']
        exact ⟨le_of_not_le hle,
          (intervalOverlaps_symm e iv).trans (hov e (List.mem_cons_self e rest))⟩
      · exact he b hb'

/-- C3: after every point-log or interval-log insertion the depth index
remains ordered: point-log markers stay sorted by non-decreasing depth, and
interval-log intervals stay non-overlapping with non-decreasing from-depths. -/
theorem depth_index_ordered_after_insertion :
    (∀ (cd x : ℚ) (markers : List ℚ), markers.Sorted (· ≤ ·) →
      ((insertPointLog cd x markers).1).Sorted (· ≤ ·)) ∧
    (∀ (tol : ℚ) (iv : ℚ × ℚ) (l l' : List (ℚ × ℚ)) (b : Bool),
      IntervalIndexOrdered l → insertIntervalLog tol iv l = .ok (l', b) →
      IntervalIndexOrdered l') := by
  constructor
  · intro cd x markers hs
    cases hm : nearestMarker x markers with
    | none =>
      simp only [insertPointLog, hm]
      simp
    | some m =>
      by_cases hd : |x - m| ≤ cd
      · simp only [insertPointLog, hm, if_pos hd]
        exact hs
      · simp only [insertPointLog, hm, if_neg hd]
        exact List.Sorted.orderedInsert x markers hs
  · intro tol iv l l' b hl hins
    cases hmatch : intervalMatch tol iv l with
    | some e =>
      rw [insertIntervalLog, hmatch] at hins
      simp only [Except.ok.injEq, Prod.mk.injEq] at hins
      rw [← hins.1]
      exact hl
    | none =>
      rw [insertIntervalLog, hmatch] at hins
      by_cases hov : l.any (intervalOverlaps iv)
      · simp [hov] at hins
      · rw [if_neg (by simp [hov])] at hins
        simp only [Except.ok.injEq, Prod.mk.injEq] at hins
        rw [← hins.1]
        refine insertByFrom_ordered hl ?_
        intro e he
        by_cases h : intervalOverlaps iv e = true
        · exact absurd (List.any_eq_true.mpr ⟨e, he, h⟩) (by simpa using hov)
        · simpa using h

/-- Witness for C3 at a concrete input. -/
theorem depth_index_ordered_after_insertion_witness :
    ((insertPointLog 1 5 [0, 10]).1).Sorted (· ≤ ·) ∧
    IntervalIndexOrdered [(0, 1), (2, 3)] := by
  constructor
  · exact depth_index_ordered_after_insertion.1 1 5 [0, 10]
      (by norm_num [List.sorted_cons])
  · exact depth_index_ordered_after_insertion.2 1 (2, 3) [(0, 1)] [(0, 1), (2, 3)]
      false (by simp [IntervalIndexOrdered])
      (by norm_num [insertIntervalLog, intervalMatch, List.find?, abs, max_def,
        intervalOverlaps, min_def, insertByFrom])

/-! ## Reference value map (AB cell id)

A reference map sends non-negative integer codes to label strings, with code
0 reserved for "Unknown".  `assign` numbers a sequence of labels with
sequential codes starting at 1 and, on re-invocation, extends the existing
map append-only. -/

/-- Error of reference-map assignment: a requested label already exists
under a different code. -/
inductive RefMapError where
  | labelConflict
deriving DecidableEq, Repr

/-- The code under which a label is stored in the reference map, if any. -/
def lookupLabel (vm : List (Nat × String)) (label : String) : Option Nat :=
  (vm.find? fun p => p.2 == label).map Prod.fst

/-- The largest code used in the reference map. -/
def maxCode (vm : List (Nat × String)) : Nat :=
  vm.foldr (fun p acc => max p.1 acc) 0

/-- Modelled from the spec: the assignment loop of `assign` (§4.1), with the
library's incrementor not in the slice.  The label at position `i` requests
code `i + 1`; a label already present keeps its code when it matches the
requested one and is rejected otherwise ("failing if a requested label
already exists with a different code"); a fresh label is appended with the
next unused code. -/
def assignFrom : List (Nat × String) → Nat → List String →
    Except RefMapError (List (Nat × String))
  | vm, _, [] => .ok vm
  | vm, req, label :: rest =>
    match lookupLabel vm label with
    | some c =>
      if c = req then assignFrom vm (req + 1) rest else .error .labelConflict
    | none => assignFrom (vm ++ [(maxCode vm + 1, label)]) (req + 1) rest

/-- Modelled from the spec: `assign(labels)` produces sequential integer
codes starting at 1 with 0 reserved for "Unknown" and extends an existing
map append-only (§4.1). -/
def assign (vm : List (Nat × String)) (labels : List String) :
    Except RefMapError (List (Nat × String)) :=
  assignFrom (if vm.isEmpty then [(0, "Unknown")] else vm) 1 labels

/-- Pairing of the labels with consecutive codes starting from `k`. -/
def numberFrom : Nat → List String → List (Nat × String)
  | _, [] => []
  | k, label :: rest => (k, label) :: numberFrom (k + 1) rest

theorem maxCode_foldr_init (vm : List (Nat × String)) : ∀ k : Nat,
    vm.foldr (fun p acc => max p.1 acc) k = max (maxCode vm) k := by
  induction vm with
  | nil => intro k; simp [maxCode]
  | cons p vm ih =>
    intro k
    simp only [maxCode, List.foldr_cons] at *
    rw [ih k, max_assoc]

theorem maxCode_append_singleton (vm : List (Nat × String)) (k : Nat) (s : String) :
    maxCode (vm ++ [(k, s)]) = max (maxCode vm) k := by
  rw [maxCode, List.foldr_append]
  simp only [List.foldr_cons, List.foldr_nil]
  rw [maxCode_foldr_init vm (max k 0)]
  simp [max_assoc]

theorem lookupLabel_append (vm ext : List (Nat × String)) (label : String) :
    lookupLabel (vm ++ ext) label =
      (lookupLabel vm label).or (lookupLabel ext label) := by
  rw [lookupLabel, lookupLabel, lookupLabel, List.find?_append]
  cases vm.find? fun p => p.2 == label <;> simp

theorem assignFrom_fresh : ∀ (labels : List String) (vm : List (Nat × String))
    (req : Nat), (∀ l ∈ labels, lookupLabel vm l = none) → labels.Nodup →
    assignFrom vm req labels = .ok (vm ++ numberFrom (maxCode vm + 1) labels) := by
  intro labels
  induction labels with
  | nil => intro vm req _ _; simp [assignFrom, numberFrom]
  | cons label rest ih =>
    intro vm req hfresh hnd
    rw [assignFrom, hfresh label (List.mem_cons_self label rest)]
    have hmax : maxCode (vm ++ [(maxCode vm + 1, label)]) = maxCode vm + 1 := by
      rw [maxCode_append_singleton]
      simp
    rw [ih (vm ++ [(maxCode vm + 1, label)]) (req + 1) ?_ (List.Nodup.of_cons hnd)]
    · rw [hmax, numberFrom, List.append_assoc]
      simp
    · intro l hl
      rw [lookupLabel_append, hfresh l (List.mem_cons_of_mem label hl)]
      have hne : label ≠ l := by
        intro h
        rw [h] at hnd
        exact (List.nodup_cons.mp hnd).1 hl
      have hbeq : (label == l) = false := beq_eq_false_iff_ne.mpr hne
      simp [lookupLabel, List.find?, hbeq]

theorem assignFrom_append_only : ∀ (labels : List String)
    (vm vm' : List (Nat × String)) (req : Nat),
    assignFrom vm req labels = .ok vm' → ∃ ext, vm' = vm ++ ext := by
  intro labels
  induction labels with
  | nil =>
    intro vm vm' req h
    rw [assignFrom] at h
    exact ⟨[], by simpa using (Except.ok.inj h).symm⟩
  | cons label rest ih =>
    intro vm vm' req h
    rw [assignFrom] at h
    cases hl : lookupLabel vm label with
    | some c =>
      rw [hl] at h
      dsimp only at h
      by_cases hc : c = req
      · rw [if_pos hc] at h
        exact ih vm vm' (req + 1) h
      · rw [if_neg hc] at h
        cases h
    | none =>
      rw [hl] at h
      dsimp only at h
      obtain ⟨ext, hext⟩ := ih _ vm' (req + 1) h
      exact ⟨[(maxCode vm + 1, label)] ++ ext, by rw [hext, List.append_assoc]⟩

/-- C4: on a fresh reference map, `assign(labels)` maps code 0 to "Unknown"
and numbers the labels with consecutive codes starting at 1 in input order;
`assign(["AB_100","AB_200"])` yields
`{0: "Unknown", 1: "AB_100", 2: "AB_200"}`. -/
theorem assign_fresh_sequential (labels : List String) (hnd : labels.Nodup)
    (hu : "Unknown" ∉ labels) :
    assign [] labels = .ok ((0, "Unknown") :: numberFrom 1 labels) ∧
    assign [] ["AB_100", "AB_200"] =
      .ok [(0, "Unknown"), (1, "AB_100"), (2, "AB_200")] := by
  constructor
  · have hstart : assign [] labels = assignFrom [(0, "Unknown")] 1 labels := rfl
    have hfresh : ∀ l ∈ labels, lookupLabel [(0, "Unknown")] l = none := by
      intro l hl
      have hne : ("Unknown" : String) ≠ l := fun h => hu (h ▸ hl)
      have hbeq : (("Unknown" : String) == l) = false := beq_eq_false_iff_ne.mpr hne
      simp [lookupLabel, List.find?, hbeq]
    rw [hstart, assignFrom_fresh labels [(0, "Unknown")] 1 hfresh hnd]
    rfl
  · rfl

/-- Witness for C4 at a concrete input. -/
theorem assign_fresh_sequential_witness :
    assign [] ["AB_100", "AB_200"] =
      .ok ((0, "Unknown") :: numberFrom 1 ["AB_100", "AB_200"]) :=
  (assign_fresh_sequential ["AB_100", "AB_200"] (by decide) (by decide)).1

/-- C5: re-invoking `assign` on an object that already has a reference map
extends the map append-only without renumbering: a label already present
keeps its existing code, a requested label present under a different code
fails with a conflict error instead of silently overwriting, and
re-assigning `["AB_100","AB_300"]` after `{0:"Unknown",1:"AB_100",2:"AB_200"}`
keeps "AB_100" at 1 and gives "AB_300" the next unused code 3. -/
theorem assign_append_only_extension (vm vm' : List (Nat × String))
    (labels : List String) (hne : vm ≠ []) (hok : assign vm labels = .ok vm') :
    (∃ ext, vm' = vm ++ ext) ∧
    (∀ label c, lookupLabel vm label = some c → lookupLabel vm' label = some c) ∧
    (∀ label c, lookupLabel vm label = some c → c ≠ 1 →
      assign vm [label] = .error .labelConflict) ∧
    assign [(0, "Unknown"), (1, "AB_100"), (2, "AB_200")] ["AB_100", "AB_300"] =
      .ok [(0, "Unknown"), (1, "AB_100"), (2, "AB_200"), (3, "AB_300")] := by
  have hvm : vm.isEmpty = false := by
    cases vm with
    | nil => exact absurd rfl hne
    | cons p rest => rfl
  rw [assign, if_neg (by simp [hvm])] at hok
  obtain ⟨ext, hext⟩ := assignFrom_append_only labels vm vm' 1 hok
  refine ⟨⟨ext, hext⟩, ?_, ?_, rfl⟩
  · intro label c hc
    rw [hext, lookupLabel_append, hc]
    rfl
  · intro label c hc hc1
    rw [assign, if_neg (by simp [hvm]), assignFrom, hc]
    dsimp only
    rw [if_neg hc1]

/-- Witness for C5 at a concrete input. -/
theorem assign_append_only_extension_witness :
    assign [(0, "Unknown"), (1, "AB_100"), (2, "AB_200")] ["AB_100", "AB_300"] =
      .ok [(0, "Unknown"), (1, "AB_100"), (2, "AB_200"), (3, "AB_300")] :=
  (assign_append_only_extension [(0, "Unknown"), (1, "AB_100"), (2, "AB_200")]
    [(0, "Unknown"), (1, "AB_100"), (2, "AB_200"), (3, "AB_300")]
    ["AB_100", "AB_300"] (by simp) (by rfl)).2.2.2

/-! ## Receiver cell to source id assignment -/

/-- Errors of `assign_ids` on a potential-electrode (receiver) object. -/
inductive SurveyError where
  | unknownReference
  | shapeMismatch
deriving DecidableEq, Repr

/-- The label stored in the reference map under an integer code, if any. -/
def lookupCode (vm : List (Nat × String)) (code : Nat) : Option String :=
  (vm.find? fun p => p.1 == code).map Prod.snd

/-- A receiver object: its cell count and its per-cell `ab_cell_id` data. -/
structure Receiver where
  nCells : Nat
  abCellId : List Nat
deriving DecidableEq, Repr

/-- Modelled from the spec: `assign_ids(receiver_cells, source_ids)` (§4.2).
Every id must be a key of the shared reference map (else
UnknownReferenceError) and the id count must equal the receiver's cell
count (else ShapeMismatchError); on failure the receiver is returned
unmodified. -/
def assignIds (vm : List (Nat × String)) (r : Receiver) (ids : List Nat) :
    Receiver × Option SurveyError :=
  if ids.any fun i => (lookupCode vm i).isNone then (r, some .unknownReference)
  else if ids.length ≠ r.nCells then (r, some .shapeMismatch)
  else ({ r with abCellId := ids }, none)

/-- C6: `assign_ids` fails with UnknownReferenceError when some id is not a
key of the shared reference map, fails with ShapeMismatchError when the id
count differs from the receiver's cell count, and in either failure case
leaves the receiver's `ab_cell_id` data unmodified. -/
theorem assign_ids_checks (vm : List (Nat × String)) (r : Receiver)
    (ids : List Nat) :
    ((∃ i ∈ ids, lookupCode vm i = none) →
      assignIds vm r ids = (r, some .unknownReference)) ∧
    ((∀ i ∈ ids, (lookupCode vm i).isSome) → ids.length ≠ r.nCells →
      assignIds vm r ids = (r, some .shapeMismatch)) ∧
    (∀ e, (assignIds vm r ids).2 = some e → (assignIds vm r ids).1 = r) := by
  refine ⟨?_, ?_, ?_⟩
  · rintro ⟨i, hi, hnone⟩
    rw [assignIds, if_pos]
    exact List.any_eq_true.mpr ⟨i, hi, by simp [hnone]⟩
  · intro hall hlen
    rw [assignIds, if_neg, if_pos hlen]
    intro hcontra
    rcases List.any_eq_true.mp hcontra with ⟨i, hi, hnone⟩
    have hsome := hall i hi
    rw [Option.isNone_iff_eq_none.mp hnone] at hsome
    simp at hsome
  · intro e he
    by_cases h1 : (ids.any fun i => (lookupCode vm i).isNone) = true
    · simp [assignIds, h1]
    · by_cases h2 : ids.length ≠ r.nCells
      · simp [assignIds, h1, h2]
      · exfalso
        simp [assignIds, h1, h2] at he

/-- Witness for C6 at a concrete input. -/
theorem assign_ids_checks_witness :
    assignIds [(0, "Unknown"), (1, "AB_100")] ⟨2, []⟩ [1, 7] =
      (⟨2, []⟩, some .unknownReference) :=
  (assign_ids_checks [(0, "Unknown"), (1, "AB_100")] ⟨2, []⟩ [1, 7]).1
    ⟨7, by simp, by rfl⟩

/-! ## Categorical data attachment and association inference -/

/-- Granularity at which a data array attaches to its parent object. -/
inductive Association where
  | object
  | vertex
  | cell
deriving DecidableEq, Repr

/-- Errors of `add_data`. -/
inductive DataError where
  | ambiguousAssociation
  | shapeMismatch
deriving DecidableEq, Repr

/-- A data value payload: a scalar text value or an array of numbers. -/
inductive DataValues where
  | text (s : String)
  | floats (vs : List ℚ)
deriving DecidableEq, Repr

/-- Modelled from the spec: association inference when `association` is
omitted (§4.4): array length equal to the vertex count gives VERTEX, equal
to the cell count gives CELL, a scalar gives OBJECT, and an array length
matching both (vertex count = cell count) is ambiguous and rejected. -/
def inferAssociation (nv nc : Nat) : DataValues → Except DataError Association
  | .text _ => .ok .object
  | .floats vs =>
    if vs.length = nv then
      if nv = nc then .error .ambiguousAssociation else .ok .vertex
    else if vs.length = nc then .ok .cell
    else .error .shapeMismatch

/-- A data record held by an object. -/
structure DataRecord where
  name : String
  assoc : Association
  values : DataValues
deriving DecidableEq, Repr

/-- A geometric object: vertices, cells (segments), and attached data. -/
structure GObj where
  uid : Nat
  vertices : List (ℚ × ℚ × ℚ)
  cells : List (Nat × Nat)
  dataRecords : List DataRecord
deriving DecidableEq, Repr

/-- Modelled from the spec: `add_data` with the association omitted (§4.4):
the association is inferred from the shape of the values and the record is
appended to the parent object; inference failures abort without touching
the object. -/
def addData (o : GObj) (name : String) (vals : DataValues) :
    Except DataError GObj :=
  match inferAssociation o.vertices.length o.cells.length vals with
  | .error e => .error e
  | .ok a => .ok { o with dataRecords := o.dataRecords ++ [⟨name, a, vals⟩] }

/-- C8: with the association omitted, `add_data` infers VERTEX for an array
matching the vertex count, CELL for an array matching the cell count, OBJECT
for a scalar, and fails with AmbiguousAssociationError when the vertex count
equals the cell count and the array matches both. -/
theorem add_data_association_inference (o : GObj) (name : String)
    (vs : List ℚ) :
    (∀ s, addData o name (.text s) =
      .ok { o with dataRecords := o.dataRecords ++ [⟨name, .object, .text s⟩] }) ∧
    (vs.length = o.vertices.length → o.vertices.length ≠ o.cells.length →
      addData o name (.floats vs) =
        .ok { o with dataRecords := o.dataRecords ++ [⟨name, .vertex, .floats vs⟩] }) ∧
    (vs.length = o.cells.length → vs.length ≠ o.vertices.length →
      addData o name (.floats vs) =
        .ok { o with dataRecords := o.dataRecords ++ [⟨name, .cell, .floats vs⟩] }) ∧
    (vs.length = o.vertices.length → o.vertices.length = o.cells.length →
      addData o name (.floats vs) = .error .ambiguousAssociation) := by
  refine ⟨fun s => rfl, ?_, ?_, ?_⟩
  · intro hv hvc
    rw [addData, inferAssociation]
    rw [if_pos hv, if_neg hvc]
  · intro hc hnv
    rw [addData, inferAssociation]
    rw [if_neg hnv, if_pos hc]
  · intro hv hvc
    rw [addData, inferAssociation]
    rw [if_pos hv, if_pos hvc]

/-- Witness for C8 at a concrete input. -/
theorem add_data_association_inference_witness :
    addData ⟨0, [(0, 0, 0), (1, 0, 0)], [(0, 1)], []⟩ "d" (.floats [5, 7]) =
      .ok ⟨0, [(0, 0, 0), (1, 0, 0)], [(0, 1)],
        [⟨"d", .vertex, .floats [5, 7]⟩]⟩ :=
  (add_data_association_inference ⟨0, [(0, 0, 0), (1, 0, 0)], [(0, 1)], []⟩
    "d" [5, 7]).2.1 (by rfl) (by simp)

/-! ## Source/receiver electrode link

The link between a `CurrentElectrode` (source) and a `PotentialElectrode`
(receiver) object is encoded in the metadata of both objects.  The metadata
state of the workspace is modelled as a map from object uid to the optional
link record. -/

/-- The survey-link metadata written on both electrode objects: the uids of
the current-electrode (source) and potential-electrode (receiver) objects. -/
structure ElecMeta where
  current : Nat
  potential : Nat
deriving DecidableEq, Repr

/-- The link metadata of every object in the workspace, by object uid. -/
abbrev MetaWorld : Type := Nat → Option ElecMeta

/-- Overwrite the metadata of the object with uid `i`. -/
def writeMeta (i : Nat) (m : ElecMeta) (w : MetaWorld) : MetaWorld :=
  fun j => if j = i then some m else w j

/-- Remove every metadata record that references either of the two given
objects, so that a relink never leaves a one-sided reference behind. -/
def clearRefs (s r : Nat) (w : MetaWorld) : MetaWorld :=
  fun j =>
    match w j with
    | some m =>
      if m.current == s || m.potential == s || m.current == r || m.potential == r
      then none
      else some m
    | none => none

/-- Modelled from the spec: the `source.potential_electrodes = receiver`
setter, acting from the source side; it writes the mutual reference into
both objects' metadata, replacing any prior link of either object on both
sides (§4.2). -/
def setPotentialElectrodes (s r : Nat) (w : MetaWorld) : MetaWorld :=
  writeMeta r ⟨s, r⟩ (writeMeta s ⟨s, r⟩ (clearRefs s r w))

/-- Modelled from the spec: the `receiver.current_electrodes = source`
setter, acting from the receiver side. -/
def setCurrentElectrodes (r s : Nat) (w : MetaWorld) : MetaWorld :=
  writeMeta s ⟨s, r⟩ (writeMeta r ⟨s, r⟩ (clearRefs r s w))

/-- Modelled from the spec: `link(source, receiver)` (§4.2). -/
def link (s r : Nat) (w : MetaWorld) : MetaWorld :=
  setPotentialElectrodes s r w

/-- Modelled from the notebook: `PotentialElectrode.create(workspace, ...)`
with the `current_electrodes` argument links the freshly created receiver
through the receiver-side setter. -/
def createPotentialLinked (s r : Nat) (w : MetaWorld) : MetaWorld :=
  setCurrentElectrodes r s w

/-- No one-sided references: every object referenced by a link record holds
that same link record. -/
def MutualLinks (w : MetaWorld) : Prop :=
  ∀ i m, w i = some m → w m.current = some m ∧ w m.potential = some m

theorem clearRefs_eq_some {s r j : Nat} {w : MetaWorld} {m : ElecMeta}
    (h : clearRefs s r w j = some m) :
    w j = some m ∧ m.current ≠ s ∧ m.potential ≠ s ∧ m.current ≠ r ∧
      m.potential ≠ r := by
  simp only [clearRefs] at h
  cases hw : w j with
  | none => rw [hw] at h; cases h
  | some m' =>
    rw [hw] at h
    dsimp only at h
    by_cases hc : (m'.current == s || m'.potential == s || m'.current == r ||
        m'.potential == r) = true
    · rw [if_pos hc] at h; cases h
    · rw [if_neg hc] at h
      cases h
      simp only [Bool.or_eq_true, beq_iff_eq, not_or] at hc
      exact ⟨rfl, hc.1.1.1, hc.1.1.2, hc.1.2, hc.2⟩

theorem clearRefs_eq_some_of {s r j : Nat} {w : MetaWorld} {m : ElecMeta}
    (hw : w j = some m) (h1 : m.current ≠ s) (h2 : m.potential ≠ s)
    (h3 : m.current ≠ r) (h4 : m.potential ≠ r) :
    clearRefs s r w j = some m := by
  simp only [clearRefs, hw]
  rw [if_neg]
  simp only [Bool.or_eq_true, beq_iff_eq, not_or]
  exact ⟨⟨⟨h1, h2⟩, h3⟩, h4⟩

theorem link_eval_s (s r : Nat) (w : MetaWorld) : link s r w s = some ⟨s, r⟩ := by
  simp only [link, setPotentialElectrodes, writeMeta]
  by_cases h : s = r <;> simp [h]

theorem link_eval_r (s r : Nat) (w : MetaWorld) : link s r w r = some ⟨s, r⟩ := by
  simp [link, setPotentialElectrodes, writeMeta]

theorem link_eval_other {s r j : Nat} (w : MetaWorld) (hjs : j ≠ s)
    (hjr : j ≠ r) : link s r w j = clearRefs s r w j := by
  simp [link, setPotentialElectrodes, writeMeta, hjs, hjr]

/-- C7: `link(source, receiver)` writes the mutual reference into both
objects' metadata; linking the same pair again leaves the whole metadata
state unchanged (idempotent); and a link never leaves a one-sided reference:
mutuality of the metadata is preserved, and after a relink no other object
still references either member of the pair. -/
theorem electrode_link_idempotent_mutual (s r : Nat) (w : MetaWorld)
    (hm : MutualLinks w) :
    link s r w s = some ⟨s, r⟩ ∧
    link s r w r = some ⟨s, r⟩ ∧
    link s r (link s r w) = link s r w ∧
    MutualLinks (link s r w) ∧
    (∀ j, j ≠ s → j ≠ r → ∀ m', link s r w j = some m' →
      m'.current ≠ s ∧ m'.potential ≠ s ∧ m'.current ≠ r ∧ m'.potential ≠ r) := by
  refine ⟨link_eval_s s r w, link_eval_r s r w, ?_, ?_, ?_⟩
  · funext j
    by_cases hjs : j = s
    · subst hjs
      rw [link_eval_s, link_eval_s]
    · by_cases hjr : j = r
      · subst hjr
        rw [link_eval_r, link_eval_r]
      · rw [link_eval_other _ hjs hjr, link_eval_other _ hjs hjr]
        cases hv : clearRefs s r w j with
        | none =>
          have hl : link s r w j = none := (link_eval_other w hjs hjr).trans hv
          simp [clearRefs, hl]
        | some m' =>
          obtain ⟨hw, h1, h2, h3, h4⟩ := clearRefs_eq_some hv
          have hl : link s r w j = some m' :=
            (link_eval_other w hjs hjr).trans hv
          exact clearRefs_eq_some_of hl h1 h2 h3 h4
  · intro i m hi
    by_cases his : i = s
    · subst his
      rw [link_eval_s] at hi
      cases hi
      exact ⟨link_eval_s i r w, link_eval_r i r w⟩
    · by_cases hir : i = r
      · subst hir
        rw [link_eval_r] at hi
        cases hi
        exact ⟨link_eval_s s i w, link_eval_r s i w⟩
      · rw [link_eval_other _ his hir] at hi
        obtain ⟨hw, h1, h2, h3, h4⟩ := clearRefs_eq_some hi
        obtain ⟨hcur, hpot⟩ := hm i m hw
        constructor
        · rw [link_eval_other _ h1 h3]
          exact clearRefs_eq_some_of hcur h1 h2 h3 h4
        · rw [link_eval_other _ h2 h4]
          exact clearRefs_eq_some_of hpot h1 h2 h3 h4
  · intro j hjs hjr m' hm'
    rw [link_eval_other _ hjs hjr] at hm'
    obtain ⟨_, h1, h2, h3, h4⟩ := clearRefs_eq_some hm'
    exact ⟨h1, h2, h3, h4⟩

/-- Witness for C7 at a concrete input. -/
theorem electrode_link_idempotent_mutual_witness :
    link 0 1 (fun _ => none) 0 = some ⟨0, 1⟩ ∧
    link 0 1 (link 0 1 (fun _ => none)) = link 0 1 (fun _ => none) ∧
    MutualLinks (link 0 1 (fun _ => none)) := by
  have h := electrode_link_idempotent_mutual 0 1 (fun _ => none)
    (fun i m hi => nomatch hi)
  exact ⟨h.1, h.2.2.1, h.2.2.2.1⟩

theorem clearRefs_comm (s r : Nat) (w : MetaWorld) :
    clearRefs r s w = clearRefs s r w := by
  funext j
  simp only [clearRefs]
  cases w j with
  | none => rfl
  | some m =>
    cases hcs : m.current == s <;> cases hps : m.potential == s <;>
      cases hcr : m.current == r <;> cases hpr : m.potential == r <;>
      simp [hcs, hps, hcr, hpr]

theorem writeMeta_swap (i k : Nat) (m : ElecMeta) (w : MetaWorld) :
    writeMeta i m (writeMeta k m w) = writeMeta k m (writeMeta i m w) := by
  funext j
  simp only [writeMeta]
  by_cases hji : j = i <;> by_cases hjk : j = k <;> simp [hji, hjk]

/-- C10: establishing the source-receiver link in either direction is
equivalent: creating the receiver with the source argument, setting
`receiver.current_electrodes = source`, and setting
`source.potential_electrodes = receiver` yield the same metadata state, and
afterwards the two objects' metadata compare equal. -/
theorem electrode_link_direction_equivalence (s r : Nat) (w : MetaWorld) :
    createPotentialLinked s r w = link s r w ∧
    setCurrentElectrodes r s w = setPotentialElectrodes s r w ∧
    link s r w s = link s r w r := by
  have h2 : setCurrentElectrodes r s w = setPotentialElectrodes s r w := by
    rw [setCurrentElectrodes, setPotentialElectrodes, clearRefs_comm,
      writeMeta_swap]
  exact ⟨h2, h2, (link_eval_s s r w).trans (link_eval_r s r w).symm⟩

/-! ## Workspace persistence round-trip -/

/-- The in-memory workspace: the objects of the entity tree. -/
structure Workspace where
  objects : List GObj
deriving DecidableEq, Repr

/-- The persistent store contents. -/
abbrev Store : Type := List GObj

/-- Create a geometric object with the given vertices and cells inside the
workspace. -/
def createObject (ws : Workspace) (uid : Nat) (vertices : List (ℚ × ℚ × ℚ))
    (cells : List (Nat × Nat)) : Workspace × GObj :=
  let o : GObj := ⟨uid, vertices, cells, []⟩
  (⟨ws.objects ++ [o]⟩, o)

/-- Write back the updated state of an object into the workspace tree. -/
def updateObject (ws : Workspace) (o : GObj) : Workspace :=
  ⟨ws.objects.map fun p => if p.uid == o.uid then o else p⟩

/-- Modelled from the spec: `finalize(workspace)` commits pending structural
changes to the persistent store (§6); the store layer itself is not in the
slice. -/
def finalize (ws : Workspace) : Store :=
  ws.objects

/-- Modelled from the spec: reopening the store yields a workspace holding
the committed entities (§6). -/
def reopenStore (st : Store) : Workspace :=
  ⟨st⟩

/-- Retrieve an entity from the workspace by its uid. -/
def getEntity (ws : Workspace) (uid : Nat) : Option GObj :=
  ws.objects.find? fun o => o.uid == uid

theorem addData_geometry {o o' : GObj} {name : String} {vals : DataValues}
    (h : addData o name vals = .ok o') :
    o'.uid = o.uid ∧ o'.vertices = o.vertices ∧ o'.cells = o.cells ∧
      ∃ a, o'.dataRecords = o.dataRecords ++ [⟨name, a, vals⟩] := by
  rw [addData] at h
  cases hi : inferAssociation o.vertices.length o.cells.length vals with
  | error e => rw [hi] at h; cases h
  | ok a =>
    rw [hi] at h
    dsimp only at h
    cases h
    exact ⟨rfl, rfl, rfl, a, rfl⟩

/-- C9: create object, add data, finalize, reopen the store, read the object
back: the read object is exactly the written one, with the given vertices
and cells and the added data values. -/
theorem finalize_roundtrip (ws : Workspace) (uid : Nat)
    (vertices : List (ℚ × ℚ × ℚ)) (cells : List (Nat × Nat))
    (name : String) (vals : DataValues) (o' : GObj)
    (hfresh : ∀ p ∈ ws.objects, p.uid ≠ uid)
    (hok : addData (createObject ws uid vertices cells).2 name vals = .ok o') :
    getEntity (reopenStore (finalize
      (updateObject (createObject ws uid vertices cells).1 o'))) uid =
        some o' ∧
    o'.vertices = vertices ∧ o'.cells = cells ∧
    ∃ a, o'.dataRecords = [⟨name, a, vals⟩] := by
  obtain ⟨huid, hverts, hcells, a, hdata⟩ := addData_geometry hok
  have hcreate : (createObject ws uid vertices cells).2 =
      ⟨uid, vertices, cells, []⟩ := rfl
  rw [hcreate] at huid hverts hcells hdata
  dsimp only at huid hverts hcells hdata
  refine ⟨?_, hverts, hcells, a, by simpa using hdata⟩
  have hmap : ((createObject ws uid vertices cells).1.objects.map
      fun p => if p.uid == o'.uid then o' else p) = ws.objects ++ [o'] := by
    rw [createObject]
    dsimp only
    rw [List.map_append]
    congr 1
    · have hid : ∀ p ∈ ws.objects,
          (if p.uid == o'.uid then o' else p) = id p := by
        intro p hp
        rw [if_neg, id]
        simp only [beq_iff_eq, huid]
        exact hfresh p hp
      rw [List.map_congr_left hid, List.map_id]
    · simp [huid]
  rw [getEntity, reopenStore, finalize, updateObject, hmap, List.find?_append]
  have hnone : ws.objects.find? (fun o => o.uid == uid) = none := by
    rw [List.find?_eq_none]
    intro p hp
    simp only [beq_iff_eq]
    exact hfresh p hp
  rw [hnone]
  simp [huid]

/-- Witness for C9 at a concrete input. -/
theorem finalize_roundtrip_witness :
    getEntity (reopenStore (finalize (updateObject
      (createObject ⟨[]⟩ 0 [(0, 0, 0), (1, 0, 0)] [(0, 1)]).1
      ⟨0, [(0, 0, 0), (1, 0, 0)], [(0, 1)],
        [⟨"d", .vertex, .floats [5, 7]⟩]⟩))) 0 =
      some ⟨0, [(0, 0, 0), (1, 0, 0)], [(0, 1)],
        [⟨"d", .vertex, .floats [5, 7]⟩]⟩ :=
  (finalize_roundtrip ⟨[]⟩ 0 [(0, 0, 0), (1, 0, 0)] [(0, 1)] "d"
    (.floats [5, 7])
    ⟨0, [(0, 0, 0), (1, 0, 0)], [(0, 1)], [⟨"d", .vertex, .floats [5, 7]⟩]⟩
    (by simp) (by rfl)).1

end Geoh5
